import Mathlib

/-!
# Verification of the vma-rs enum binding generator (build.rs)

A shallow embedding of the build-time code generator of `vma-rs`
(`build.rs`): the generator scans the VMA C header for `Vma*` enum
declarations, accumulates `(variant name, integer value)` pairs per enum
with duplicate-value suppression (`push_enum_variant`), classifies each
enum against a hand-written configuration table (`build_config_map`), and
emits either a plain `#[repr(i32)]` Rust enum (`write_enum`) or a
`bitflags!`-based flag set (`write_flags`).

Strings are modelled as `List Char` (the configured prefixes are ASCII,
so Rust's byte slicing `&s[..s.len() - 1]` coincides with dropping the
last character).  The bindgen `EnumVariantValue` is modelled as `Int`
(the mathematical integer value of the variant).  Rust panics are made
explicit: functions that can panic return `Option` (`none` = panic) or
the dedicated `NameResult.panic` constructor.
-/

set_option autoImplicit false

namespace VmaBuild

/-- Character strings of the generator, modelled as lists of characters. -/
abbrev Str : Type := List Char

/-- Rust's `str::strip_prefix`: `some r` when `s = p ++ r`, else `none`. -/
def stripPre : Str → Str → Option Str
  | [], s => some s
  | _ :: _, [] => none
  | p :: ps, c :: cs => if p = c then stripPre ps cs else none

theorem stripPre_eq_some {p s r : Str} : stripPre p s = some r ↔ s = p ++ r := by
  induction p generalizing s with
  | nil => simp [stripPre]
  | cons p ps ih =>
    cases s with
    | nil => simp [stripPre]
    | cons c cs =>
      by_cases hpc : p = c
      · subst hpc
        simp [stripPre, ih]
      · simp [stripPre, hpc, Ne.symm hpc]

theorem stripPre_self (p : Str) : stripPre p p = some [] :=
  stripPre_eq_some.mpr (List.append_nil p).symm

/-- Rust's `str::contains`: some position of `s` starts with `pat`. -/
def containsSub (pat : Str) : Str → Bool
  | [] => (stripPre pat []).isSome
  | c :: cs => (stripPre pat (c :: cs)).isSome || containsSub pat cs

/-- Recursion core of `replaceAll`, structural on a fuel argument so that
it reduces in the kernel.  Every step consumes at least one character of
the string, so fuel equal to the string's length is always enough; the
`0, s => s` fallback is unreachable under that fuel. -/
def replaceAllF (pat repl : Str) : Nat → Str → Str
  | _, [] => []
  | 0, s => s
  | fuel + 1, c :: cs =>
    match stripPre pat (c :: cs) with
    | some rest =>
      if pat = [] then c :: replaceAllF pat repl fuel cs
      else repl ++ replaceAllF pat repl fuel rest
    | none => c :: replaceAllF pat repl fuel cs

/-- Rust's `str::replace pat repl`: replace each non-overlapping occurrence
of `pat`, scanning left to right.  (The generator only ever calls this with
the non-empty pattern `"_BIT"`; an empty pattern is left alone here.) -/
def replaceAll (pat repl s : Str) : Str := replaceAllF pat repl s.length s

/-- The `"_BIT"` infix tag removed from flag variant names. -/
def bitPat : Str := '_' :: 'B' :: 'I' :: 'T' :: []

/-- The `"MAX_ENUM"` sentinel marker. -/
def maxEnumPat : Str := 'M' :: 'A' :: 'X' :: '_' :: 'E' :: 'N' :: 'U' :: 'M' :: []

/-- Outcome of a variant-name transform.  `panic` models a Rust panic
(`Option::unwrap` on `None`, or slicing an empty prefix); `skipped w`
models returning `None` after printing a cargo warning iff `w = true`;
`ok s` models `Some(s)`. -/
inductive NameResult : Type where
  | panic : NameResult
  | skipped : Bool → NameResult
  | ok : Str → NameResult
deriving DecidableEq, Repr

/-- `format_enum_variant_name` of build.rs: strip the configured prefix
(warning + skip on failure); panic when the remainder is empty
(`chars().next().unwrap()`); when the remainder starts with a digit,
re-strip with the prefix minus its last character (`unwrap`, and the byte
slice `&pre[..pre.len() - 1]` itself panics when the prefix is empty). -/
def format_enum_variant_name (pre name : Str) : NameResult :=
  match stripPre pre name with
  | none => .skipped true
  | some [] => .panic
  | some (c :: cs) =>
    if c.isDigit then
      if pre = [] then .panic
      else
        match stripPre pre.dropLast name with
        | none => .panic
        | some f2 => .ok f2
    else .ok (c :: cs)

/-- `format_flag_variant_name` of build.rs: same as
`format_enum_variant_name` except that a failed prefix strip returns
`None` with no warning, and every `"_BIT"` occurrence is removed from the
final name. -/
def format_flag_variant_name (pre name : Str) : NameResult :=
  match stripPre pre name with
  | none => .skipped false
  | some [] => .panic
  | some (c :: cs) =>
    if c.isDigit then
      if pre = [] then .panic
      else
        match stripPre pre.dropLast name with
        | none => .panic
        | some f2 => .ok (replaceAll bitPat [] f2)
    else .ok (replaceAll bitPat [] (c :: cs))

/-- `filter_enum_variant` of build.rs: keep names not containing `MAX_ENUM`. -/
def filter_enum_variant (name : Str) : Bool :=
  !(containsSub maxEnumPat name)

/-- One scanned enum variant: `(original name, integer value)`.  The
bindgen `EnumVariantValue` is modelled as its integer value. -/
abbrev EnumVariant : Type := Str × Int

/-- `EnumVec` of build.rs: the accumulated variant list of one enum. -/
abbrev EnumVec : Type := List EnumVariant

/-- `push_enum_variant` of build.rs: drop the new variant silently when its
value is already recorded, otherwise append it. -/
def push_enum_variant (vec : EnumVec) (variant : Str) (value : Int) : EnumVec :=
  if vec.any (fun e => e.2 = value) then vec
  else vec ++ [(variant, value)]

/-- Folding `push_enum_variant` over a declaration-ordered list of scanned
variants, starting from the empty accumulator (what the bindgen callback
does for one enum). -/
def pushAll (decls : List EnumVariant) : EnumVec :=
  decls.foldl (fun vec e => push_enum_variant vec e.1 e.2) []

/-- Specification-style first-occurrence deduplication by value. -/
def dedupFirst : List EnumVariant → List EnumVariant
  | [] => []
  | x :: xs => x :: (dedupFirst xs).filter (fun y => !(y.2 = x.2 : Bool))

/-- Diagnostics printed through `cargo_warning!` in build.rs. -/
inductive Warning : Type where
  | noConfig : Str → Warning
  | stripFail : Str → Warning
  | dupConfig : Str → Warning
deriving DecidableEq, Repr

/-- The emitted body of one plain `#[repr(i32)]` enum produced by
`write_enum`: ordered `(emitted variant name, discriminant)` pairs, plus
the warnings printed while writing it.  `none` models a panic aborting
generation. -/
def emit_enum_variants (pre : Str) (skip : List Str) :
    EnumVec → Option (List Warning × List (Str × Int))
  | [] => some ([], [])
  | e :: rest =>
    if filter_enum_variant e.1 = false then emit_enum_variants pre skip rest
    else if skip.contains e.1 then emit_enum_variants pre skip rest
    else
      match format_enum_variant_name pre e.1 with
      | .panic => none
      | .skipped w =>
        (emit_enum_variants pre skip rest).map
          (fun r => (if w then Warning.stripFail e.1 :: r.1 else r.1, r.2))
      | .ok f =>
        (emit_enum_variants pre skip rest).map
          (fun r => (r.1, (f, e.2) :: r.2))

/-- Rust's `as u32` cast of a C enum constant: the value modulo `2 ^ 32`. -/
def u32ofInt (z : Int) : Nat := (z % (2 ^ 32 : Int)).toNat

/-- The emitted body of one `bitflags!` flag set produced by `write_flags`:
ordered `(emitted flag name, u32 bit value)` pairs plus warnings; `none`
models a panic.  `write_flags` filters `MAX_ENUM` names twice (once through
`filter_enum_variant`, once with an explicit `contains` check). -/
def emit_flags_variants (pre : Str) :
    EnumVec → Option (List Warning × List (Str × Nat))
  | [] => some ([], [])
  | e :: rest =>
    if filter_enum_variant e.1 = false then emit_flags_variants pre rest
    else if containsSub maxEnumPat e.1 then emit_flags_variants pre rest
    else
      match format_flag_variant_name pre e.1 with
      | .panic => none
      | .skipped w =>
        (emit_flags_variants pre rest).map
          (fun r => (if w then Warning.stripFail e.1 :: r.1 else r.1, r.2))
      | .ok f =>
        (emit_flags_variants pre rest).map
          (fun r => (r.1, (f, u32ofInt e.2) :: r.2))

/-- The raw-value constructor emitted by `write_enum`:
`pub const fn from_raw(value: i32) -> Self { transmute(value) }`.
A transmute reinterprets the 32-bit pattern unchanged — it is total, not a
validated parse — so on representations it is the identity. -/
def enum_from_raw (value : Int) : Int := value

/-- The raw-value accessor emitted by `write_enum`:
`pub const fn as_raw(&self) -> i32 { *self as i32 }` — the discriminant of
the variant, i.e. the identity on representations. -/
def enum_as_raw (value : Int) : Int := value

/-- The named variant (if any) of an emitted enum body denoted by a raw
discriminant: the first emitted entry carrying that value. -/
def interp_named (body : List (Str × Int)) (z : Int) : Option Str :=
  (body.find? (fun e => e.2 = z)).map (fun e => e.1)

/-- Bitwise OR of a list of `u32` bit values. -/
def orAll : List Nat → Nat
  | [] => 0
  | x :: xs => x ||| orAll xs

/-- The mask of all bits named by an emitted flag-set body. -/
def knownMask (body : List (Str × Nat)) : Nat := orAll (body.map (fun e => e.2))

/-- Modelled from the spec: the truncating raw-conversion entry point of the
emitted bitmask type (`from_bits_truncate` of the expanded `bitflags!`
output, which is generated-macro code not present under src/): unknown
bits are dropped, keeping exactly the bits named by the flag set. -/
def from_bits_truncate (body : List (Str × Nat)) (raw : Nat) : Nat :=
  raw &&& knownMask body

/-- Modelled from the spec: the raw accessor `bits()` of the emitted
bitmask type — returns the stored `u32` representation unchanged. -/
def flags_bits (stored : Nat) : Nat := stored

/-- `EnumConfig` of build.rs. -/
structure EnumConfig : Type where
  name : Str
  custom_name : Option Str
  pre : Str
  is_flags : Bool
deriving DecidableEq, Repr

/-- `HashMap::get` over the configuration table built by insertion:
`HashMap::insert` overwrites, so the last entry registered for a name
wins. -/
def lookupConfig (cfg : List EnumConfig) (name : Str) : Option EnumConfig :=
  (cfg.filter (fun c => c.name = name)).getLast?

/-- One emitted wrapper type, tagged by the scanned enum name it came
from. -/
inductive Emitted : Type where
  | plainE : Str → List (Str × Int) → Emitted
  | flagsE : Str → List (Str × Nat) → Emitted
deriving DecidableEq, Repr

/-- The scanned enum name an emitted wrapper was generated for. -/
def Emitted.srcName : Emitted → Str
  | .plainE n _ => n
  | .flagsE n _ => n

/-- The body of the per-enum loop in `main`: look the scanned enum up in
the configuration table; warn and emit nothing when unconfigured; else run
`write_enum` or `write_flags` (whose panics propagate as `none`).
`main` passes `skip = None` to `write_enum`, modelled as `[]`. -/
def process_entry (cfg : List EnumConfig) (entry : Str × EnumVec) :
    Option (List Warning × Option Emitted) :=
  match lookupConfig cfg entry.1 with
  | none => some ([Warning.noConfig entry.1], none)
  | some config =>
    if config.is_flags then
      match emit_flags_variants config.pre entry.2 with
      | none => none
      | some r => some (r.1, some (.flagsE entry.1 r.2))
    else
      match emit_enum_variants config.pre [] entry.2 with
      | none => none
      | some r => some (r.1, some (.plainE entry.1 r.2))

/-- The full per-enum loop of `main` over the scanned enum map's entries. -/
def process_enums (cfg : List EnumConfig) :
    List (Str × EnumVec) → Option (List Warning × List Emitted)
  | [] => some ([], [])
  | entry :: rest =>
    match process_entry cfg entry with
    | none => none
    | some (ws, out) =>
      match process_enums cfg rest with
      | none => none
      | some (ws2, outs) => some (ws ++ ws2, out.elim outs (fun o => o :: outs))

/-- The precondition phase of `main` followed by generation: reading
`VULKAN_SDK` with `.expect` (panic when unset), then checking that the VMA
header exists (panic when absent), and only then parsing the header
(yielding `entries`) and emitting.  `none` models a fatal build abort. -/
def run_build (sdk : Option Str) (headerExists : Bool)
    (cfg : List EnumConfig) (entries : List (Str × EnumVec)) :
    Option (List Warning × List Emitted) :=
  match sdk with
  | none => none
  | some _ => if headerExists = false then none else process_enums cfg entries

/-! ## Basic facts about the name transforms -/

theorem stripPre_dropLast (pre name f : Str) (hp : pre ≠ [])
    (hs : stripPre pre name = some f) :
    stripPre pre.dropLast name = some (pre.getLast hp :: f) := by
  apply stripPre_eq_some.mpr
  have hname : name = pre ++ f := stripPre_eq_some.mp hs
  have hsplit : pre.dropLast ++ [pre.getLast hp] = pre :=
    List.dropLast_append_getLast hp
  rw [hname]
  show pre ++ f = pre.dropLast ++ ([pre.getLast hp] ++ f)
  rw [← List.append_assoc, hsplit]

/-- C10: the variant-name transforms panic exactly at the empty-remainder
edge: a declared name equal to the (non-empty) configured prefix makes
both transforms panic, while any name whose remainder after the full
prefix strip is non-empty never panics (the digit-fallback re-strip always
succeeds because the full-prefix strip already succeeded). -/
theorem variant_name_panic_edge (pre name f : Str) (hp : pre ≠ []) :
    format_enum_variant_name pre pre = .panic ∧
    format_flag_variant_name pre pre = .panic ∧
    (stripPre pre name = some f → f ≠ [] →
      format_enum_variant_name pre name ≠ .panic ∧
      format_flag_variant_name pre name ≠ .panic) := by
  refine ⟨?_, ?_, ?_⟩
  · simp [format_enum_variant_name, stripPre_self]
  · simp [format_flag_variant_name, stripPre_self]
  · intro hs hf
    obtain ⟨c, cs, rfl⟩ : ∃ c cs, f = c :: cs := by
      cases f with
      | nil => exact absurd rfl hf
      | cons c cs => exact ⟨c, cs, rfl⟩
    have hd := stripPre_dropLast pre name (c :: cs) hp hs
    constructor
    · simp only [format_enum_variant_name, hs, hp, hd]
      split <;> simp
    · simp only [format_flag_variant_name, hs, hp, hd]
      split <;> simp

theorem variant_name_panic_edge_witness :
    ("VMA_MEMORY_USAGE_".toList : Str) ≠ [] ∧
    format_enum_variant_name ("VMA_MEMORY_USAGE_".toList) ("VMA_MEMORY_USAGE_".toList) =
      .panic ∧
    format_enum_variant_name ("VMA_MEMORY_USAGE_".toList) ("VMA_MEMORY_USAGE_AUTO".toList) ≠
      .panic := by
  have h := variant_name_panic_edge ("VMA_MEMORY_USAGE_".toList)
    ("VMA_MEMORY_USAGE_AUTO".toList) ("AUTO".toList) (by decide)
  exact ⟨by decide, h.1, (h.2.2 (by decide) (by decide)).1⟩

/-- C3 (counterexample): for the flag transform the emitted name is not
always the remainder after stripping the full prefix — `_BIT` is removed:
prefix `VMA_ALLOCATION_CREATE_` on `VMA_ALLOCATION_CREATE_MAPPED_BIT`
leaves remainder `MAPPED_BIT` but emits `MAPPED`. -/
theorem flag_variant_name_not_remainder :
    stripPre ("VMA_ALLOCATION_CREATE_".toList)
        ("VMA_ALLOCATION_CREATE_MAPPED_BIT".toList) = some ("MAPPED_BIT".toList) ∧
    format_flag_variant_name ("VMA_ALLOCATION_CREATE_".toList)
        ("VMA_ALLOCATION_CREATE_MAPPED_BIT".toList) = .ok ("MAPPED".toList) ∧
    ("MAPPED".toList : Str) ≠ ("MAPPED_BIT".toList : Str) := by
  refine ⟨by decide, by decide, by decide⟩

/-- C3 (amended): when the remainder after the full prefix strip starts
with a digit, both transforms re-strip with the prefix minus its final
character, so the plain-enum emitted name is that longer remainder
(gaining the prefix's last character); when the remainder does not start
with a digit the plain-enum emitted name is the remainder itself.  The
flag transform emits the same string with every `_BIT` occurrence
additionally removed. -/
theorem digit_fallback_strip (pre name : Str) (d : Char) (rest : Str) (hp : pre ≠ [])
    (hs : stripPre pre name = some (d :: rest)) :
    (d.isDigit = true →
      stripPre pre.dropLast name = some (pre.getLast hp :: d :: rest) ∧
      format_enum_variant_name pre name = .ok (pre.getLast hp :: d :: rest) ∧
      format_flag_variant_name pre name =
        .ok (replaceAll bitPat [] (pre.getLast hp :: d :: rest))) ∧
    (d.isDigit = false →
      format_enum_variant_name pre name = .ok (d :: rest) ∧
      format_flag_variant_name pre name = .ok (replaceAll bitPat [] (d :: rest))) := by
  have hd := stripPre_dropLast pre name (d :: rest) hp hs
  constructor
  · intro hdig
    refine ⟨hd, ?_, ?_⟩
    · simp [format_enum_variant_name, hs, hdig, hp, hd]
    · simp [format_flag_variant_name, hs, hdig, hp, hd]
  · intro hdig
    constructor
    · simp [format_enum_variant_name, hs, hdig]
    · simp [format_flag_variant_name, hs, hdig]

theorem digit_fallback_strip_witness :
    ("VMA_MEMORY_USAGE_".toList : Str) ≠ [] ∧
    stripPre ("VMA_MEMORY_USAGE_".toList) ("VMA_MEMORY_USAGE_2TEST".toList) =
      some ("2TEST".toList) ∧
    Char.isDigit '2' = true ∧
    format_enum_variant_name ("VMA_MEMORY_USAGE_".toList)
      ("VMA_MEMORY_USAGE_2TEST".toList) = .ok ("_2TEST".toList) := by
  have h := digit_fallback_strip ("VMA_MEMORY_USAGE_".toList)
    ("VMA_MEMORY_USAGE_2TEST".toList) '2' ("TEST".toList) (by decide) (by decide)
  exact ⟨by decide, by decide, by decide, (h.1 (by decide)).2.1⟩

/-- C4 (counterexample): a flags-enum variant whose name cannot be
stripped of the configured prefix is skipped silently — the transform
returns the no-warning skip, not the warning skip the claim demands. -/
theorem flag_strip_failure_silent :
    format_flag_variant_name ("VMA_POOL_CREATE_".toList) ("OTHER".toList) =
      .skipped false ∧
    format_flag_variant_name ("VMA_POOL_CREATE_".toList) ("OTHER".toList) ≠
      .skipped true := by
  refine ⟨by decide, by decide⟩

/-- C4 (amended): a failed prefix strip is never a hard failure; the
plain-enum transform warns (`skipped true`) and the emitter records a
`stripFail` warning and omits only that variant, while the flags
transform skips silently (`skipped false`, no warning recorded). -/
theorem strip_failure_warning_policy (pre : Str) (v : EnumVariant)
    (skip : List Str) (rest : EnumVec)
    (h : stripPre pre v.1 = none) (hf : filter_enum_variant v.1 = true)
    (hsk : skip.contains v.1 = false) :
    format_enum_variant_name pre v.1 = .skipped true ∧
    format_flag_variant_name pre v.1 = .skipped false ∧
    emit_enum_variants pre skip (v :: rest) =
      (emit_enum_variants pre skip rest).map
        (fun r => (Warning.stripFail v.1 :: r.1, r.2)) ∧
    emit_flags_variants pre (v :: rest) = emit_flags_variants pre rest := by
  have he : format_enum_variant_name pre v.1 = .skipped true := by
    simp [format_enum_variant_name, h]
  have hg : format_flag_variant_name pre v.1 = .skipped false := by
    simp [format_flag_variant_name, h]
  have hcont : containsSub maxEnumPat v.1 = false := by
    have := hf
    unfold filter_enum_variant at this
    cases hc : containsSub maxEnumPat v.1 <;> simp [hc] at this ⊢
  have hsk' : v.1 ∉ skip := by simpa using hsk
  refine ⟨he, hg, ?_, ?_⟩
  · simp [emit_enum_variants, hf, hsk', he]
  · simp only [emit_flags_variants, hf, hcont, hg]
    cases emit_flags_variants pre rest <;> simp

theorem strip_failure_warning_policy_witness :
    stripPre ("VMA_POOL_CREATE_".toList) ("OTHER".toList) = none ∧
    emit_flags_variants ("VMA_POOL_CREATE_".toList)
        [(("OTHER".toList : Str), (9 : Int))] =
      emit_flags_variants ("VMA_POOL_CREATE_".toList) [] := by
  have h := strip_failure_warning_policy ("VMA_POOL_CREATE_".toList)
    (("OTHER".toList : Str), (9 : Int)) [] [] (by decide) (by decide) (by decide)
  exact ⟨by decide, h.2.2.2⟩

/-! ## Duplicate-value suppression -/

theorem dedupFirst_filter_value (p : EnumVariant → Bool)
    (h : ∀ a b : EnumVariant, a.2 = b.2 → p a = p b) (l : List EnumVariant) :
    dedupFirst (l.filter p) = (dedupFirst l).filter p := by
  induction l with
  | nil => rfl
  | cons x xs ih =>
    by_cases hp : p x = true
    · have h1 : (x :: xs).filter p = x :: xs.filter p := List.filter_cons_of_pos hp
      have h2 : (x :: (dedupFirst xs).filter
            (fun y => !(decide (y.2 = x.2)))).filter p =
          x :: ((dedupFirst xs).filter (fun y => !(decide (y.2 = x.2)))).filter p :=
        List.filter_cons_of_pos hp
      rw [h1]
      simp only [dedupFirst]
      rw [ih, h2, List.filter_filter, List.filter_filter]
      refine congrArg (fun t => x :: t) (List.filter_congr ?_)
      intro y _
      rw [Bool.and_comm]
    · have hp' : p x = false := by
        cases hpp : p x
        · rfl
        · exact absurd hpp hp
      have h1 : (x :: xs).filter p = xs.filter p :=
        List.filter_cons_of_neg (by simp [hp'])
      have h2 : (x :: (dedupFirst xs).filter
            (fun y => !(decide (y.2 = x.2)))).filter p =
          ((dedupFirst xs).filter (fun y => !(decide (y.2 = x.2)))).filter p :=
        List.filter_cons_of_neg (by simp [hp'])
      rw [h1, ih]
      simp only [dedupFirst]
      rw [h2, List.filter_filter]
      refine List.filter_congr ?_
      intro y _
      by_cases hyx : y.2 = x.2
      · have : p y = false := (h y x hyx).trans hp'
        simp [this]
      · simp [hyx]

theorem foldl_push_eq (l : List EnumVariant) : ∀ acc : EnumVec,
    l.foldl (fun vec e => push_enum_variant vec e.1 e.2) acc =
      acc ++ dedupFirst (l.filter (fun y => !(acc.any (fun e => e.2 = y.2)))) := by
  induction l with
  | nil => intro acc; simp [dedupFirst]
  | cons x xs ih =>
    intro acc
    by_cases hx : acc.any (fun e => e.2 = x.2) = true
    · have hPx : (fun y : EnumVariant => !(acc.any (fun e => e.2 = y.2))) x = false := by
        simp only [hx, Bool.not_true]
      rw [List.foldl_cons]
      rw [show push_enum_variant acc x.1 x.2 = acc from by
        simp [push_enum_variant, hx]]
      rw [ih acc]
      rw [show ((x :: xs).filter (fun y => !(acc.any (fun e => e.2 = y.2)))) =
            (xs.filter (fun y => !(acc.any (fun e => e.2 = y.2)))) from
        List.filter_cons_of_neg (by simp [hPx])]
    · have hx' : acc.any (fun e => e.2 = x.2) = false := by
        cases hh : acc.any (fun e => e.2 = x.2)
        · rfl
        · exact absurd hh hx
      have hPx : (fun y : EnumVariant => !(acc.any (fun e => e.2 = y.2))) x = true := by
        simp only [hx', Bool.not_false]
      rw [List.foldl_cons]
      rw [show push_enum_variant acc x.1 x.2 = acc ++ [x] from by
        simp [push_enum_variant, hx']]
      rw [ih (acc ++ [x])]
      rw [show ((x :: xs).filter (fun y => !(acc.any (fun e => e.2 = y.2)))) =
            x :: (xs.filter (fun y => !(acc.any (fun e => e.2 = y.2)))) from
        List.filter_cons_of_pos hPx]
      simp only [dedupFirst]
      have hpred : (xs.filter
            (fun y => !((acc ++ [x]).any (fun e => e.2 = y.2)))) =
          (xs.filter (fun y => !(acc.any (fun e => e.2 = y.2)))).filter
            (fun y => !(decide (y.2 = x.2))) := by
        rw [List.filter_filter]
        refine (List.filter_congr ?_)
        intro y _
        simp only [List.any_append, List.any_cons, List.any_nil]
        rw [Bool.or_false, Bool.not_or, Bool.and_comm]
        refine congrArg (fun t => !t && !(acc.any fun e => decide (e.2 = y.2))) ?_
        simp [eq_comm]
      rw [hpred]
      rw [dedupFirst_filter_value (fun y => !(decide (y.2 = x.2)))
        (fun a b hab => by simp [hab])]
      simp [List.append_assoc]

theorem pushAll_eq_dedupFirst (decls : List EnumVariant) :
    pushAll decls = dedupFirst decls := by
  rw [pushAll, foldl_push_eq]
  simp

theorem dedupFirst_sublist (l : List EnumVariant) :
    List.Sublist (dedupFirst l) l := by
  induction l with
  | nil => simp [dedupFirst]
  | cons x xs ih =>
    simp only [dedupFirst]
    exact ((List.filter_sublist _).trans ih).cons₂ x

theorem dedupFirst_values_nodup (l : List EnumVariant) :
    ((dedupFirst l).map Prod.snd).Nodup := by
  induction l with
  | nil => simp [dedupFirst]
  | cons x xs ih =>
    simp only [dedupFirst, List.map_cons, List.nodup_cons]
    constructor
    · intro hmem
      obtain ⟨y, hy, hval⟩ := List.mem_map.mp hmem
      have := (List.mem_filter.mp hy).2
      simp [hval] at this
    · exact ((List.filter_sublist _).map Prod.snd).nodup ih

/-- C5: appending a variant whose value is already recorded leaves the
accumulated list unchanged (silently, no error value is produced), and any
sequence of appends starting from the empty accumulator yields exactly the
first-occurrence-by-value deduplication of the declarations: values are
unique and the retained variants are a sublist of the declarations (hence
in first-seen order, each under its first-declared name). -/
theorem push_enum_variant_dedup (decls : List EnumVariant) (vec : EnumVec)
    (variant : Str) (value : Int)
    (h : vec.any (fun e => e.2 = value) = true) :
    push_enum_variant vec variant value = vec ∧
    pushAll decls = dedupFirst decls ∧
    ((pushAll decls).map Prod.snd).Nodup ∧
    List.Sublist (pushAll decls) decls := by
  refine ⟨by simp [push_enum_variant, h], pushAll_eq_dedupFirst decls, ?_, ?_⟩
  · rw [pushAll_eq_dedupFirst]
    exact dedupFirst_values_nodup decls
  · rw [pushAll_eq_dedupFirst]
    exact dedupFirst_sublist decls

theorem push_enum_variant_dedup_witness :
    push_enum_variant [(("UNKNOWN".toList : Str), (0 : Int))] ("ALIAS".toList) 0 =
      [(("UNKNOWN".toList : Str), (0 : Int))] ∧
    pushAll [(("UNKNOWN".toList : Str), (0 : Int)),
             (("ALIAS".toList : Str), (0 : Int)),
             (("GPU_ONLY".toList : Str), (1 : Int))] =
      dedupFirst [(("UNKNOWN".toList : Str), (0 : Int)),
                  (("ALIAS".toList : Str), (0 : Int)),
                  (("GPU_ONLY".toList : Str), (1 : Int))] := by
  have h := push_enum_variant_dedup
    [(("UNKNOWN".toList : Str), (0 : Int)),
     (("ALIAS".toList : Str), (0 : Int)),
     (("GPU_ONLY".toList : Str), (1 : Int))]
    [(("UNKNOWN".toList : Str), (0 : Int))] ("ALIAS".toList) 0 (by decide)
  exact ⟨h.1, h.2.1⟩

/-! ## Plain-enum emission: round-trip and sentinel exclusion -/

theorem emit_enum_values_sublist (pre : Str) (skip : List Str) (vec : EnumVec) :
    ∀ (ws : List Warning) (E : List (Str × Int)),
      emit_enum_variants pre skip vec = some (ws, E) →
      List.Sublist (E.map Prod.snd) (vec.map Prod.snd) := by
  induction vec with
  | nil =>
    intro ws E h
    simp only [emit_enum_variants, Option.some.injEq, Prod.mk.injEq] at h
    rw [← h.2]
  | cons e rest ih =>
    intro ws E h
    simp only [emit_enum_variants] at h
    rw [List.map_cons]
    split at h
    · exact (ih ws E h).cons e.2
    · split at h
      · exact (ih ws E h).cons e.2
      · split at h
        · exact absurd h (by simp)
        · cases hrest : emit_enum_variants pre skip rest with
          | none => rw [hrest] at h; simp at h
          | some r =>
            rw [hrest] at h
            simp only [Option.map_some', Option.some.injEq, Prod.mk.injEq] at h
            rw [← h.2]
            exact (ih r.1 r.2 (by rw [hrest])).cons e.2
        · cases hrest : emit_enum_variants pre skip rest with
          | none => rw [hrest] at h; simp at h
          | some r =>
            rw [hrest] at h
            simp only [Option.map_some', Option.some.injEq, Prod.mk.injEq] at h
            rw [← h.2, List.map_cons]
            exact (ih r.1 r.2 (by rw [hrest])).cons₂ e.2

theorem find?_value_of_nodup (E : List (Str × Int)) (n : Str) (v : Int)
    (hmem : (n, v) ∈ E) (hnd : (E.map Prod.snd).Nodup) :
    E.find? (fun e => e.2 = v) = some (n, v) := by
  induction E with
  | nil => simp at hmem
  | cons x xs ih =>
    rw [List.map_cons, List.nodup_cons] at hnd
    rcases List.mem_cons.mp hmem with hx | hxs
    · rw [← hx]
      exact List.find?_cons_of_pos _ (by simp)
    · have hxv : (decide (x.2 = v)) = false := by
        by_cases hv : x.2 = v
        · exfalso
          apply hnd.1
          rw [hv]
          exact List.mem_map.mpr ⟨(n, v), hxs, rfl⟩
        · simp [hv]
      rw [List.find?_cons_of_neg _ (by simp [hxv])]
      exact ih hxs hnd.2

/-- C6: for an enum body emitted by `write_enum` from an accumulated
variant list with unique values (the invariant `push_enum_variant`
maintains), converting any retained named variant to its raw `i32`
discriminant (`as_raw`) and reinterpreting that integer (`from_raw`)
denotes the identical named variant. -/
theorem enum_raw_roundtrip (pre : Str) (skip : List Str) (vec : EnumVec)
    (ws : List Warning) (E : List (Str × Int)) (n : Str) (v : Int)
    (hnd : (vec.map Prod.snd).Nodup)
    (hE : emit_enum_variants pre skip vec = some (ws, E))
    (hmem : (n, v) ∈ E) :
    interp_named E (enum_from_raw (enum_as_raw v)) = some n := by
  have hsub := emit_enum_values_sublist pre skip vec ws E hE
  have hndE : (E.map Prod.snd).Nodup := hnd.sublist hsub
  rw [enum_from_raw, enum_as_raw, interp_named,
    find?_value_of_nodup E n v hmem hndE]
  rfl

theorem enum_raw_roundtrip_witness :
    emit_enum_variants ("VMA_MEMORY_USAGE_".toList) []
        [(("VMA_MEMORY_USAGE_UNKNOWN".toList : Str), (0 : Int)),
         (("VMA_MEMORY_USAGE_GPU_ONLY".toList : Str), (1 : Int))] =
      some ([], [(("UNKNOWN".toList : Str), (0 : Int)),
                 (("GPU_ONLY".toList : Str), (1 : Int))]) ∧
    interp_named [(("UNKNOWN".toList : Str), (0 : Int)),
                  (("GPU_ONLY".toList : Str), (1 : Int))]
        (enum_from_raw (enum_as_raw 1)) = some ("GPU_ONLY".toList) := by
  refine ⟨by decide, ?_⟩
  exact enum_raw_roundtrip ("VMA_MEMORY_USAGE_".toList) []
    [(("VMA_MEMORY_USAGE_UNKNOWN".toList : Str), (0 : Int)),
     (("VMA_MEMORY_USAGE_GPU_ONLY".toList : Str), (1 : Int))]
    [] [(("UNKNOWN".toList : Str), (0 : Int)),
        (("GPU_ONLY".toList : Str), (1 : Int))]
    ("GPU_ONLY".toList) 1 (by decide) (by decide) (by decide)

/-- C7: a variant whose declared name contains the `MAX_ENUM` sentinel
marker has no effect on emission: inserting it anywhere in the scanned
variant list leaves both the plain-enum output and the flags output
(warnings included) unchanged, so no such variant ever appears in a
generated type definition. -/
theorem max_enum_sentinel_excluded (pre : Str) (skip : List Str)
    (v1 v2 : EnumVec) (e : EnumVariant)
    (h : containsSub maxEnumPat e.1 = true) :
    emit_enum_variants pre skip (v1 ++ e :: v2) =
      emit_enum_variants pre skip (v1 ++ v2) ∧
    emit_flags_variants pre (v1 ++ e :: v2) =
      emit_flags_variants pre (v1 ++ v2) := by
  induction v1 with
  | nil =>
    have hfe : filter_enum_variant e.1 = false := by
      simp [filter_enum_variant, h]
    constructor
    · simp [emit_enum_variants, hfe]
    · simp [emit_flags_variants, hfe]
  | cons x v1 ih =>
    obtain ⟨ih1, ih2⟩ := ih
    constructor
    · show emit_enum_variants pre skip (x :: (v1 ++ e :: v2)) =
        emit_enum_variants pre skip (x :: (v1 ++ v2))
      simp only [emit_enum_variants, ih1]
    · show emit_flags_variants pre (x :: (v1 ++ e :: v2)) =
        emit_flags_variants pre (x :: (v1 ++ v2))
      simp only [emit_flags_variants, ih2]

theorem max_enum_sentinel_excluded_witness :
    containsSub maxEnumPat ("VMA_MEMORY_USAGE_MAX_ENUM".toList) = true ∧
    emit_enum_variants ("VMA_MEMORY_USAGE_".toList) []
        [(("VMA_MEMORY_USAGE_UNKNOWN".toList : Str), (0 : Int)),
         (("VMA_MEMORY_USAGE_MAX_ENUM".toList : Str), (2147483647 : Int))] =
      emit_enum_variants ("VMA_MEMORY_USAGE_".toList) []
        [(("VMA_MEMORY_USAGE_UNKNOWN".toList : Str), (0 : Int))] := by
  refine ⟨by decide, ?_⟩
  have h := max_enum_sentinel_excluded ("VMA_MEMORY_USAGE_".toList) []
    [(("VMA_MEMORY_USAGE_UNKNOWN".toList : Str), (0 : Int))] []
    (("VMA_MEMORY_USAGE_MAX_ENUM".toList : Str), (2147483647 : Int)) (by decide)
  exact h.1

/-! ## Bitmask emission: raw round-trip on known bits -/

theorem orAll_testBit (l : List Nat) (i : Nat) :
    (orAll l).testBit i = l.any (fun x => x.testBit i) := by
  induction l with
  | nil => simp [orAll]
  | cons x xs ih => simp [orAll, Nat.testBit_or, ih]

theorem orAll_and_orAll_of_subset (S l : List Nat) (hS : ∀ x ∈ S, x ∈ l) :
    orAll S &&& orAll l = orAll S := by
  apply Nat.eq_of_testBit_eq
  intro i
  rw [Nat.testBit_and, orAll_testBit, orAll_testBit]
  cases hb : S.any (fun x => x.testBit i) with
  | false => simp
  | true =>
    obtain ⟨x, hx, hbit⟩ := List.any_eq_true.mp hb
    have hl : l.any (fun x => x.testBit i) = true :=
      List.any_eq_true.mpr ⟨x, hS x hx, hbit⟩
    simp [hl]

/-- C1: the emitted bitmask type has a conversion entry point from the raw
`u32` (the truncating conversion `from_bits_truncate`, modelled from the
spec) together with the raw accessor `bits`, and for any raw value
composed only of bits known to the emitted flag set — whether given as a
value satisfying `raw AND mask = raw` or as an OR-combination of emitted
bit values — converting back and forward returns the value unchanged. -/
theorem flags_roundtrip_known_bits (pre : Str) (vec : EnumVec)
    (ws : List Warning) (E : List (Str × Nat))
    (hE : emit_flags_variants pre vec = some (ws, E)) :
    (∀ raw : Nat, flags_bits (from_bits_truncate E raw) = raw &&& knownMask E) ∧
    (∀ raw : Nat, raw &&& knownMask E = raw →
      flags_bits (from_bits_truncate E raw) = raw) ∧
    (∀ S : List Nat, (∀ x ∈ S, x ∈ E.map Prod.snd) →
      flags_bits (from_bits_truncate E (orAll S)) = orAll S) := by
  refine ⟨fun raw => rfl, fun raw h => h, fun S hS => ?_⟩
  exact orAll_and_orAll_of_subset S (E.map Prod.snd) hS

theorem flags_roundtrip_known_bits_witness :
    emit_flags_variants ("VMA_POOL_CREATE_".toList)
        [(("VMA_POOL_CREATE_IGNORE_BUFFER_IMAGE_GRANULARITY_BIT".toList : Str),
           (2 : Int)),
         (("VMA_POOL_CREATE_LINEAR_ALGORITHM_BIT".toList : Str), (4 : Int))] =
      some ([], [(("IGNORE_BUFFER_IMAGE_GRANULARITY".toList : Str), (2 : Nat)),
                 (("LINEAR_ALGORITHM".toList : Str), (4 : Nat))]) ∧
    flags_bits (from_bits_truncate
        [(("IGNORE_BUFFER_IMAGE_GRANULARITY".toList : Str), (2 : Nat)),
         (("LINEAR_ALGORITHM".toList : Str), (4 : Nat))] (orAll [2, 4])) =
      orAll [2, 4] := by
  refine ⟨by decide, ?_⟩
  have h := flags_roundtrip_known_bits ("VMA_POOL_CREATE_".toList)
    [(("VMA_POOL_CREATE_IGNORE_BUFFER_IMAGE_GRANULARITY_BIT".toList : Str),
       (2 : Int)),
     (("VMA_POOL_CREATE_LINEAR_ALGORITHM_BIT".toList : Str), (4 : Int))]
    [] [(("IGNORE_BUFFER_IMAGE_GRANULARITY".toList : Str), (2 : Nat)),
        (("LINEAR_ALGORITHM".toList : Str), (4 : Nat))] (by decide)
  exact h.2.2 [2, 4] (by decide)

/-! ## Totality of the plain-enum raw conversion -/

/-- C2: the emitted `from_raw` is a total reinterpretation of the `i32`
bit pattern: it is defined (and the identity on the representation) for
every value in the `i32` range, and — since an emitted enum names fewer
than `2 ^ 32` variants — there always exist in-range raw values outside
the named set on which it is still defined, i.e. it is not a validated
parse. -/
theorem enum_from_raw_total (z : Int) (E : List (Str × Int))
    (hz : -(2 ^ 31) ≤ z ∧ z < 2 ^ 31) (hcard : E.length < 2 ^ 32) :
    enum_from_raw z = z ∧ enum_as_raw (enum_from_raw z) = z ∧
    ∃ w : Int, -(2 ^ 31) ≤ w ∧ w < 2 ^ 31 ∧ interp_named E w = none ∧
      enum_from_raw w = w := by
  refine ⟨rfl, rfl, ?_⟩
  have hcard2 : ((E.map Prod.snd).toFinset).card < 2 ^ 32 :=
    lt_of_le_of_lt ((E.map Prod.snd).toFinset_card_le.trans
      (by rw [List.length_map])) hcard
  have hR : (Finset.Icc (-(2 ^ 31) : ℤ) (2 ^ 31 - 1)).card = 2 ^ 32 := by
    rw [Int.card_Icc]
    norm_num
    rfl
  have hnotsub : ¬ (Finset.Icc (-(2 ^ 31) : ℤ) (2 ^ 31 - 1) ⊆
      (E.map Prod.snd).toFinset) := by
    intro hsub
    have := Finset.card_le_card hsub
    omega
  obtain ⟨w, hwR, hwS⟩ := Finset.not_subset.mp hnotsub
  rw [Finset.mem_Icc] at hwR
  refine ⟨w, hwR.1, by omega, ?_, rfl⟩
  rw [interp_named]
  have hfind : E.find? (fun e => e.2 = w) = none := by
    apply List.find?_eq_none.mpr
    intro x hx
    simp only [decide_eq_true_eq]
    intro hval
    exact hwS (List.mem_toFinset.mpr
      (List.mem_map.mpr ⟨x, hx, hval⟩))
  rw [hfind]
  rfl

theorem enum_from_raw_total_witness :
    (-(2 ^ 31) : ℤ) ≤ 7 ∧ (7 : ℤ) < 2 ^ 31 ∧
    ([(("UNKNOWN".toList : Str), (0 : Int))] : List (Str × Int)).length <
      2 ^ 32 ∧
    enum_from_raw 7 = 7 := by
  have h := enum_from_raw_total 7 [(("UNKNOWN".toList : Str), (0 : Int))]
    ⟨by norm_num, by norm_num⟩ (by norm_num)
  exact ⟨by norm_num, by norm_num, by norm_num, h.1⟩

/-! ## The per-enum loop: unconfigured enums and fatal preconditions -/

theorem emit_enum_warnings_are_stripFail (pre : Str) (skip : List Str)
    (vec : EnumVec) :
    ∀ (ws : List Warning) (E : List (Str × Int)),
      emit_enum_variants pre skip vec = some (ws, E) →
      ∀ wa ∈ ws, ∃ s, wa = Warning.stripFail s := by
  induction vec with
  | nil =>
    intro ws E h wa hw
    simp only [emit_enum_variants, Option.some.injEq, Prod.mk.injEq] at h
    rw [← h.1] at hw
    simp at hw
  | cons e rest ih =>
    intro ws E h wa hw
    simp only [emit_enum_variants] at h
    split at h
    · exact ih ws E h wa hw
    · split at h
      · exact ih ws E h wa hw
      · split at h
        · exact absurd h (by simp)
        · cases hrest : emit_enum_variants pre skip rest with
          | none => rw [hrest] at h; simp at h
          | some r =>
            rw [hrest] at h
            simp only [Option.map_some', Option.some.injEq, Prod.mk.injEq] at h
            rw [← h.1] at hw
            split at hw
            · rcases List.mem_cons.mp hw with h1 | h1
              · exact ⟨e.1, h1⟩
              · exact ih r.1 r.2 (by rw [hrest]) wa h1
            · exact ih r.1 r.2 (by rw [hrest]) wa hw
        · cases hrest : emit_enum_variants pre skip rest with
          | none => rw [hrest] at h; simp at h
          | some r =>
            rw [hrest] at h
            simp only [Option.map_some', Option.some.injEq, Prod.mk.injEq] at h
            rw [← h.1] at hw
            exact ih r.1 r.2 (by rw [hrest]) wa hw

theorem emit_flags_warnings_are_stripFail (pre : Str) (vec : EnumVec) :
    ∀ (ws : List Warning) (E : List (Str × Nat)),
      emit_flags_variants pre vec = some (ws, E) →
      ∀ wa ∈ ws, ∃ s, wa = Warning.stripFail s := by
  induction vec with
  | nil =>
    intro ws E h wa hw
    simp only [emit_flags_variants, Option.some.injEq, Prod.mk.injEq] at h
    rw [← h.1] at hw
    simp at hw
  | cons e rest ih =>
    intro ws E h wa hw
    simp only [emit_flags_variants] at h
    split at h
    · exact ih ws E h wa hw
    · split at h
      · exact ih ws E h wa hw
      · split at h
        · exact absurd h (by simp)
        · cases hrest : emit_flags_variants pre rest with
          | none => rw [hrest] at h; simp at h
          | some r =>
            rw [hrest] at h
            simp only [Option.map_some', Option.some.injEq, Prod.mk.injEq] at h
            rw [← h.1] at hw
            split at hw
            · rcases List.mem_cons.mp hw with h1 | h1
              · exact ⟨e.1, h1⟩
              · exact ih r.1 r.2 (by rw [hrest]) wa h1
            · exact ih r.1 r.2 (by rw [hrest]) wa hw
        · cases hrest : emit_flags_variants pre rest with
          | none => rw [hrest] at h; simp at h
          | some r =>
            rw [hrest] at h
            simp only [Option.map_some', Option.some.injEq, Prod.mk.injEq] at h
            rw [← h.1] at hw
            exact ih r.1 r.2 (by rw [hrest]) wa hw

theorem process_entry_unconfigured (cfg : List EnumConfig)
    (entry : Str × EnumVec) (h : lookupConfig cfg entry.1 = none) :
    process_entry cfg entry = some ([Warning.noConfig entry.1], none) := by
  simp [process_entry, h]

theorem process_entry_configured (cfg : List EnumConfig)
    (entry : Str × EnumVec) (c : EnumConfig) (ws : List Warning)
    (out : Option Emitted) (hc : lookupConfig cfg entry.1 = some c)
    (h : process_entry cfg entry = some (ws, out)) :
    (∀ wa ∈ ws, ∃ s, wa = Warning.stripFail s) ∧
    (∀ o, out = some o → o.srcName = entry.1) := by
  simp only [process_entry, hc] at h
  split at h
  · cases hemit : emit_flags_variants c.pre entry.2 with
    | none => rw [hemit] at h; simp at h
    | some r =>
      rw [hemit] at h
      simp only [Option.some.injEq, Prod.mk.injEq] at h
      constructor
      · intro wa hw
        rw [← h.1] at hw
        exact emit_flags_warnings_are_stripFail c.pre entry.2 r.1 r.2
          (by rw [hemit]) wa hw
      · intro o ho
        rw [← h.2] at ho
        cases ho
        rfl
  · cases hemit : emit_enum_variants c.pre [] entry.2 with
    | none => rw [hemit] at h; simp at h
    | some r =>
      rw [hemit] at h
      simp only [Option.some.injEq, Prod.mk.injEq] at h
      constructor
      · intro wa hw
        rw [← h.1] at hw
        exact emit_enum_warnings_are_stripFail c.pre [] entry.2 r.1 r.2
          (by rw [hemit]) wa hw
      · intro o ho
        rw [← h.2] at ho
        cases ho
        rfl

theorem process_enums_noConfig_mem (cfg : List EnumConfig) :
    ∀ (es : List (Str × EnumVec)) (ws : List Warning) (outs : List Emitted),
      process_enums cfg es = some (ws, outs) →
      ∀ m, Warning.noConfig m ∈ ws → m ∈ es.map Prod.fst := by
  intro es
  induction es with
  | nil =>
    intro ws outs h m hm
    simp only [process_enums, Option.some.injEq, Prod.mk.injEq] at h
    rw [← h.1] at hm
    simp at hm
  | cons entry rest ih =>
    intro ws outs h m hm
    simp only [process_enums] at h
    cases hpe : process_entry cfg entry with
    | none => rw [hpe] at h; simp at h
    | some p =>
      obtain ⟨w1, out⟩ := p
      rw [hpe] at h
      cases hrec : process_enums cfg rest with
      | none => rw [hrec] at h; simp at h
      | some q =>
        obtain ⟨w2, outs2⟩ := q
        rw [hrec] at h
        simp only [Option.some.injEq, Prod.mk.injEq] at h
        rw [← h.1] at hm
        rcases List.mem_append.mp hm with h1 | h1
        · cases hlc : lookupConfig cfg entry.1 with
          | none =>
            have := process_entry_unconfigured cfg entry hlc
            rw [hpe] at this
            simp only [Option.some.injEq, Prod.mk.injEq] at this
            rw [this.1] at h1
            simp only [List.mem_singleton] at h1
            cases h1
            simp
          | some c =>
            obtain ⟨s, hs⟩ := (process_entry_configured cfg entry c w1 out
              hlc hpe).1 _ h1
            exact absurd hs (by simp)
        · exact List.mem_cons_of_mem _ (ih w2 outs2 (by rw [hrec]) m h1)

theorem process_enums_srcName_mem (cfg : List EnumConfig) :
    ∀ (es : List (Str × EnumVec)) (ws : List Warning) (outs : List Emitted),
      process_enums cfg es = some (ws, outs) →
      ∀ o ∈ outs, Emitted.srcName o ∈ es.map Prod.fst := by
  intro es
  induction es with
  | nil =>
    intro ws outs h o ho
    simp only [process_enums, Option.some.injEq, Prod.mk.injEq] at h
    rw [← h.2] at ho
    simp at ho
  | cons entry rest ih =>
    intro ws outs h o ho
    simp only [process_enums] at h
    cases hpe : process_entry cfg entry with
    | none => rw [hpe] at h; simp at h
    | some p =>
      obtain ⟨w1, out⟩ := p
      rw [hpe] at h
      cases hrec : process_enums cfg rest with
      | none => rw [hrec] at h; simp at h
      | some q =>
        obtain ⟨w2, outs2⟩ := q
        rw [hrec] at h
        simp only [Option.some.injEq, Prod.mk.injEq] at h
        rw [← h.2] at ho
        cases out with
        | none =>
          simp only [Option.elim] at ho
          exact List.mem_cons_of_mem _ (ih w2 outs2 (by rw [hrec]) o ho)
        | some o0 =>
          simp only [Option.elim] at ho
          rcases List.mem_cons.mp ho with h1 | h1
          · cases hlc : lookupConfig cfg entry.1 with
            | none =>
              have := process_entry_unconfigured cfg entry hlc
              rw [hpe] at this
              simp at this
            | some c =>
              have hsrc := (process_entry_configured cfg entry c w1 (some o0)
                hlc hpe).2 o0 rfl
              rw [h1, hsrc]
              simp
          · exact List.mem_cons_of_mem _ (ih w2 outs2 (by rw [hrec]) o h1)

/-- C8: in a run of the per-enum loop over scanned enums with distinct
names, a scanned enum absent from the configuration table contributes
exactly one `noConfig` warning naming it and no emitted wrapper, while the
loop as a whole still completes. -/
theorem unconfigured_enum_warned_once (cfg : List EnumConfig)
    (entries : List (Str × EnumVec)) (name : Str) (vec : EnumVec)
    (hcfg : lookupConfig cfg name = none) :
    ∀ (ws : List Warning) (outs : List Emitted),
      (entries.map Prod.fst).Nodup →
      (name, vec) ∈ entries →
      process_enums cfg entries = some (ws, outs) →
      ws.countP (fun wa => decide (wa = Warning.noConfig name)) = 1 ∧
      ∀ o ∈ outs, Emitted.srcName o ≠ name := by
  induction entries with
  | nil =>
    intro ws outs _ hmem _
    simp at hmem
  | cons entry rest ih =>
    intro ws outs hnd hmem hrun
    simp only [process_enums] at hrun
    cases hpe : process_entry cfg entry with
    | none => rw [hpe] at hrun; simp at hrun
    | some p =>
      obtain ⟨w1, out⟩ := p
      rw [hpe] at hrun
      cases hrec : process_enums cfg rest with
      | none => rw [hrec] at hrun; simp at hrun
      | some q =>
        obtain ⟨w2, outs2⟩ := q
        rw [hrec] at hrun
        simp only [Option.some.injEq, Prod.mk.injEq] at hrun
        obtain ⟨hws, houts⟩ := hrun
        rw [List.map_cons, List.nodup_cons] at hnd
        rcases List.mem_cons.mp hmem with hhead | htail
        · have hename : entry.1 = name := by rw [← hhead]
          have hu := process_entry_unconfigured cfg entry
            (by rw [hename]; exact hcfg)
          rw [hpe] at hu
          simp only [Option.some.injEq, Prod.mk.injEq] at hu
          constructor
          · rw [← hws, List.countP_append, hu.1]
            have hcount2 : w2.countP
                (fun wa => decide (wa = Warning.noConfig name)) = 0 := by
              apply List.countP_eq_zero.mpr
              intro a ha
              simp only [decide_eq_true_eq]
              intro hEq
              rw [hEq] at ha
              have hin := process_enums_noConfig_mem cfg rest w2 outs2
                (by rw [hrec]) name ha
              rw [← hename] at hin
              exact hnd.1 hin
            rw [hcount2]
            simp [hename]
          · intro o ho
            rw [← houts, hu.2] at ho
            simp only [Option.elim] at ho
            have hin := process_enums_srcName_mem cfg rest w2 outs2
              (by rw [hrec]) o ho
            intro hcon
            rw [hcon, ← hename] at hin
            exact hnd.1 hin
        · have hname_mem : name ∈ rest.map Prod.fst :=
            List.mem_map.mpr ⟨(name, vec), htail, rfl⟩
          have hne : entry.1 ≠ name := fun hcon => hnd.1 (hcon ▸ hname_mem)
          have hih := ih w2 outs2 hnd.2 htail (by rw [hrec])
          constructor
          · rw [← hws, List.countP_append, hih.1]
            have h1 : w1.countP
                (fun wa => decide (wa = Warning.noConfig name)) = 0 := by
              apply List.countP_eq_zero.mpr
              intro a ha
              simp only [decide_eq_true_eq]
              intro hEq
              cases hlc : lookupConfig cfg entry.1 with
              | none =>
                have hu := process_entry_unconfigured cfg entry hlc
                rw [hpe] at hu
                simp only [Option.some.injEq, Prod.mk.injEq] at hu
                rw [hu.1] at ha
                simp only [List.mem_singleton] at ha
                rw [ha] at hEq
                exact hne (by injection hEq)
              | some c =>
                obtain ⟨s, hs⟩ := (process_entry_configured cfg entry c w1 out
                  hlc hpe).1 a ha
                rw [hs] at hEq
                exact absurd hEq (by simp)
            rw [h1]
          · intro o ho
            rw [← houts] at ho
            cases out with
            | none =>
              simp only [Option.elim] at ho
              exact hih.2 o ho
            | some o0 =>
              simp only [Option.elim] at ho
              rcases List.mem_cons.mp ho with h1 | h1
              · cases hlc : lookupConfig cfg entry.1 with
                | none =>
                  have hu := process_entry_unconfigured cfg entry hlc
                  rw [hpe] at hu
                  simp at hu
                | some c =>
                  have hsrc := (process_entry_configured cfg entry c w1
                    (some o0) hlc hpe).2 o0 rfl
                  rw [h1, hsrc]
                  exact hne
              · exact hih.2 o h1

theorem unconfigured_enum_warned_once_witness :
    lookupConfig [] ("VmaIntStats".toList) = none ∧
    process_enums [] [(("VmaIntStats".toList : Str), ([] : EnumVec))] =
      some ([Warning.noConfig ("VmaIntStats".toList)], []) ∧
    List.countP (fun wa => decide (wa = Warning.noConfig ("VmaIntStats".toList)))
      [Warning.noConfig ("VmaIntStats".toList)] = 1 := by
  refine ⟨by decide, by decide, ?_⟩
  have h := unconfigured_enum_warned_once [] [(("VmaIntStats".toList : Str), ([] : EnumVec))]
    ("VmaIntStats".toList) [] (by decide)
    [Warning.noConfig ("VmaIntStats".toList)] [] (by decide) (by decide) (by decide)
  exact h.1

/-- C9: generation with an unset `VULKAN_SDK` environment variable, or
with the VMA header absent at its fixed relative path, aborts fatally
(`none`, not a warning list), and the abort does not depend on any parsed
entries or configuration — it happens before parsing and before any
emission. -/
theorem missing_sdk_or_header_fatal :
    (∀ (he : Bool) (cfg : List EnumConfig) (entries : List (Str × EnumVec)),
      run_build none he cfg entries = none) ∧
    (∀ (sdk : Str) (cfg : List EnumConfig) (entries : List (Str × EnumVec)),
      run_build (some sdk) false cfg entries = none) ∧
    (∀ (he : Bool) (sdk : Str) (cfg cfg2 : List EnumConfig)
        (e1 e2 : List (Str × EnumVec)),
      run_build none he cfg e1 = run_build none he cfg2 e2 ∧
      run_build (some sdk) false cfg e1 = run_build (some sdk) false cfg2 e2) := by
  refine ⟨fun he cfg entries => rfl, fun sdk cfg entries => by simp [run_build],
    fun he sdk cfg cfg2 e1 e2 => ⟨rfl, by simp [run_build]⟩⟩

/-- `build_config_map` of build.rs: the hand-maintained configuration
table (here as the insertion-ordered list; `lookupConfig` applies the
last-wins overwrite semantics of `HashMap::insert`). -/
def build_config_map : List EnumConfig :=
  [⟨"VmaMemoryUsage".toList, none, "VMA_MEMORY_USAGE_".toList, false⟩,
   ⟨"VmaAllocationCreateFlagBits".toList, none,
     "VMA_ALLOCATION_CREATE_".toList, true⟩,
   ⟨"VmaPoolCreateFlagBits".toList, none, "VMA_POOL_CREATE_".toList, true⟩,
   ⟨"VmaAllocatorCreateFlagBits".toList, none,
     "VMA_ALLOCATOR_CREATE_".toList, true⟩,
   ⟨"VmaDefragmentationFlagBits".toList, none,
     "VMA_DEFRAGMENTATION_FLAG_".toList, true⟩,
   ⟨"VmaDefragmentationMoveOperation".toList, none,
     "VMA_DEFRAGMENTATION_MOVE_OPERATION_".toList, false⟩,
   ⟨"VmaVirtualBlockCreateFlagBits".toList, none,
     "VMA_VIRTUAL_BLOCK_CREATE_".toList, true⟩,
   ⟨"VmaVirtualAllocationCreateFlagBits".toList, none,
     "VMA_VIRTUAL_ALLOCATION_CREATE_".toList, true⟩]

/-- Every configured strip prefix in the table is non-empty (the
hypothesis under which the no-panic half of the edge-case analysis
applies). -/
theorem build_config_map_pre_ne_nil :
    ∀ c ∈ build_config_map, c.pre ≠ [] := by decide

end VmaBuild
